/-
Verification of the parts-table component (`src/parts-table/parts-table.component.ts`).

The component keeps two registries (`selectedParts`, `checkedParts`) keyed by a
composite string key, plus a parts matrix indexed by repair-type id and category id.
JavaScript `Map`s and plain objects preserve insertion order and have unique keys,
so both are embedded as association lists (`List (String × α)`) with
`mget` / `mset` / `mdel` mirroring `Map.get` / `Map.set` / `Map.delete`
(and property read / write / `delete` on objects).  Methods that mutate `this`
become functions on an explicit `State`; `updateSelectedParts`, which also
mutates the part records it is handed (`p.qty = ...`), returns the updated
records alongside the new registry.
-/

import Mathlib

set_option maxHeartbeats 1000000

namespace PartsTable

/-- A part record (`Part` interface): part number, the secondary `sOS` attribute,
the exclusion flag and a mutable quantity. -/
structure Part where
  partNumber : String
  sOS : String
  isExcluded : Bool
  qty : Int
  deriving DecidableEq, Repr

/-- A part together with its owning category id and repair-type id
(`CategorizedPart` interface); this is what both registries store:
`updateSelectedParts` builds it as `{ categoryId, torId, ...p }`. -/
structure CategorizedPart where
  categoryId : String
  torId : String
  partNumber : String
  sOS : String
  isExcluded : Bool
  qty : Int
  deriving DecidableEq, Repr

/-- A repair type (`TOR` interface): id, title, and the included/excluded part lists. -/
structure TOR where
  torId : String
  title : String
  partsIncluded : List Part
  partsExcluded : List Part
  deriving DecidableEq, Repr

/-- A category (`SNRCategory` interface).  `repairTypes` is optional because the
source guards `if (!repairTypes) return;` during matrix construction. -/
structure SNRCategory where
  categoryId : String
  title : String
  repairTypes : Option (List TOR)
  deriving DecidableEq, Repr

/-- A matrix cell (`DividedParts<Part>`): the included and excluded part lists. -/
structure DividedParts where
  included : List Part
  excluded : List Part
  deriving DecidableEq, Repr

/-- An entry of the `categoriesById` lookup: `{ categoryId, title }`. -/
structure CatByIdEntry where
  categoryId : String
  title : String
  deriving DecidableEq, Repr

/-- An entry of the `torsById` lookup: `{ torId, title }` (a `Partial<TOR>`). -/
structure TorByIdEntry where
  torId : String
  title : String
  deriving DecidableEq, Repr

/-! ### Association-list model of JavaScript `Map` / object indexing -/

/-- `Map.get` / property read: value of the first (unique) entry with key `k`. -/
def mget {α : Type} : List (String × α) → String → Option α
  | [], _ => none
  | (k', v) :: t, k => if k' = k then some v else mget t k

/-- `Map.set` / property write: replace in place if the key is present
(a JavaScript `Map` keeps the original insertion position), else append. -/
def mset {α : Type} : List (String × α) → String → α → List (String × α)
  | [], k, v => [(k, v)]
  | (k', v') :: t, k, v => if k' = k then (k, v) :: t else (k', v') :: mset t k v

/-- `Map.delete`: remove the entry with key `k` (a no-op if absent). -/
def mdel {α : Type} : List (String × α) → String → List (String × α)
  | [], _ => []
  | (k', v) :: t, k => if k' = k then mdel t k else (k', v) :: mdel t k

/-- `Map.has`. -/
def mhas {α : Type} (m : List (String × α)) (k : String) : Bool :=
  (mget m k).isSome

/-- The parts matrix `{ [torId]: { [categoryId]: DividedParts } }`. -/
abbrev Matrix := List (String × List (String × DividedParts))

/-- The component's mutable fields that the core logic reads and writes. -/
structure State where
  uKeyPfx : String
  selectedParts : List (String × CategorizedPart)
  checkedParts : List (String × CategorizedPart)
  categoriesById : List (String × CatByIdEntry)
  torsById : List (String × TorByIdEntry)
  partsMatrix : Option Matrix
  torColumns : List String
  deriving DecidableEq, Repr

/-- `getUKey`: the composite key
`` `${uKeyPrefix}_${categoryId}_${torId}_${part.partNumber}_${part.sOS}` ``. -/
def getUKey (pfx categoryId torId partNumber sOS : String) : String :=
  pfx ++ "_" ++ categoryId ++ "_" ++ torId ++ "_" ++ partNumber ++ "_" ++ sOS

/-- The quantity `selectedPreviouslyPart ? selectedPreviouslyPart.qty : 1`. -/
def prevQty (sel : List (String × CategorizedPart)) (k : String) : Int :=
  match mget sel k with
  | some prev => prev.qty
  | none => 1

/-- `updateSelectedParts(parts, categoryId, torId, checked)`: for each part in
order, compute its key; if `checked`, overwrite `p.qty` on the part record and
insert `{ categoryId, torId, ...p }` into the registry, else delete the key.
Returns the new registry together with the part records it mutated. -/
def updateSelectedParts (pfx categoryId torId : String) (checked : Bool) :
    List Part → List (String × CategorizedPart) →
    List (String × CategorizedPart) × List Part
  | [], sel => (sel, [])
  | p :: rest, sel =>
    let uKey := getUKey pfx categoryId torId p.partNumber p.sOS
    if checked then
      let p' : Part := { p with qty := prevQty sel uKey }
      let sel' := mset sel uKey
        { categoryId := categoryId, torId := torId, partNumber := p'.partNumber,
          sOS := p'.sOS, isExcluded := p'.isExcluded, qty := p'.qty }
      let r := updateSelectedParts pfx categoryId torId checked rest sel'
      (r.1, p' :: r.2)
    else
      let r := updateSelectedParts pfx categoryId torId checked rest (mdel sel uKey)
      (r.1, p :: r.2)

/-- `qtyChanged(qty)`: clear the checked registry and overwrite the `qty` field
of every selected entry (`this.selectedParts.forEach(val => val.qty = qty)`). -/
def qtyChanged (qty : Int) (s : State) : State :=
  { s with
    checkedParts := [],
    selectedParts := s.selectedParts.map fun e => (e.1, { e.2 with qty := qty }) }

/-- `updatePricesInfo()`: replace the checked registry with a fresh map indexing
each priced part under its composite key. -/
def updatePricesInfo (partsPrices : List CategorizedPart) (s : State) : State :=
  { s with
    checkedParts := partsPrices.foldl
      (fun m p => mset m (getUKey s.uKeyPfx p.categoryId p.torId p.partNumber p.sOS) p)
      [] }

/-- `isAllPartsInCategorySelected(category)`: every part of every repair type of
the category (included and excluded lists) has its key in the selected registry.
The source dereferences `category.repairTypes` unconditionally, so the `none`
case is never reached on the inputs the component is given. -/
def isAllPartsInCategorySelected
    (sel : List (String × CategorizedPart)) (pfx : String)
    (category : SNRCategory) : Bool :=
  match category.repairTypes with
  | none => true
  | some rts =>
    (rts.map fun tor =>
        (tor.partsIncluded ++ tor.partsExcluded).all fun p =>
          mhas sel (getUKey pfx category.categoryId tor.torId p.partNumber p.sOS)).all
      id

/-! ### Matrix construction -/

/-- Write cell `(torId, categoryId)`: the source creates the row and/or cell if
missing and then assigns both `included` and `excluded`, i.e. the cell is
replaced wholesale; fresh rows/cells are appended (object property order). -/
def matrixSet (m : Matrix) (torId categoryId : String) (cell : DividedParts) : Matrix :=
  match mget m torId with
  | none => m ++ [(torId, [(categoryId, cell)])]
  | some row => mset m torId (mset row categoryId cell)

/-- The intermediate state threaded through `createPartsMatrix`'s loops: the
local `partsMatrix` object plus the persistent id-title lookups. -/
structure BuildAcc where
  matrix : Matrix
  categoriesById : List (String × CatByIdEntry)
  torsById : List (String × TorByIdEntry)
  deriving DecidableEq, Repr

/-- Inner loop of `createPartsMatrix`: for each repair type, record its
id/title and fill cell `(torId, categoryId)` with `partsIncluded` verbatim and
`partsExcluded` with `isExcluded` forced `true` on every part. -/
def buildTors (categoryId : String) : List TOR → BuildAcc → BuildAcc
  | [], acc => acc
  | tor :: rest, acc =>
    buildTors categoryId rest
      { acc with
        torsById := mset acc.torsById tor.torId ⟨tor.torId, tor.title⟩,
        matrix := matrixSet acc.matrix tor.torId categoryId
          ⟨tor.partsIncluded, tor.partsExcluded.map fun p => { p with isExcluded := true }⟩ }

/-- Outer loop of `createPartsMatrix`: categories without a `repairTypes` list
are skipped; otherwise the category's id/title is recorded and its repair types
are processed. -/
def buildCats : List SNRCategory → BuildAcc → BuildAcc
  | [], acc => acc
  | c :: rest, acc =>
    match c.repairTypes with
    | none => buildCats rest acc
    | some rts =>
      buildCats rest
        (buildTors c.categoryId rts
          { acc with categoriesById := mset acc.categoriesById c.categoryId ⟨c.categoryId, c.title⟩ })

/-- Stable insertion used to model `Array.prototype.sort` with comparator
`(a, b) => b.count - a.count`: `sort` is stable, so an element goes after every
already-placed element of greater-or-equal count. -/
def insertByCountDesc (x : String × Nat) : List (String × Nat) → List (String × Nat)
  | [] => [x]
  | h :: t => if x.2 ≤ h.2 then h :: insertByCountDesc x t else x :: h :: t

/-- The stable descending-by-count sort of the `(torId, category count)` pairs. -/
def sortByCountDesc (l : List (String × Nat)) : List (String × Nat) :=
  l.foldl (fun acc x => insertByCountDesc x acc) []

/-- The `(key, count)` pairs `Object.keys(partsMatrix).map(key => ({key, count}))`:
rows in insertion order, each with the number of categories in the row. -/
def torCountPairs (m : Matrix) : List (String × Nat) :=
  m.map fun row => (row.1, row.2.length)

/-- `this.torColumns`: matrix keys sorted by descending category count. -/
def torColumnsOf (m : Matrix) : List String :=
  (sortByCountDesc (torCountPairs m)).map Prod.fst

/-- `createPartsMatrix()`: if `this.categories` is absent, set `torColumns` to
`[]` and return early (note: `this.partsMatrix` is left untouched); otherwise
rebuild the matrix from scratch, update the persistent id-title lookups, and
recompute the column order. -/
def createPartsMatrix (categories : Option (List SNRCategory)) (s : State) : State :=
  match categories with
  | none => { s with torColumns := [] }
  | some cats =>
    let acc := buildCats cats ⟨[], s.categoriesById, s.torsById⟩
    { s with
      partsMatrix := some acc.matrix,
      torColumns := torColumnsOf acc.matrix,
      categoriesById := acc.categoriesById,
      torsById := acc.torsById }

/-! ### Association-list lemmas -/

@[simp]
theorem mget_nil {α : Type} (k : String) : mget ([] : List (String × α)) k = none := rfl

theorem mget_mset {α : Type} (m : List (String × α)) (k k' : String) (v : α) :
    mget (mset m k v) k' = if k = k' then some v else mget m k' := by
  induction m with
  | nil => simp [mset, mget]
  | cons h t ih =>
    obtain ⟨k0, v0⟩ := h
    by_cases h0 : k0 = k
    · subst h0
      simp only [mset, if_pos rfl, mget]
      by_cases h1 : k0 = k' <;> simp [h1]
    · simp only [mset, if_neg h0, mget, ih]
      by_cases h1 : k0 = k'
      · subst h1
        simp [Ne.symm h0]
      · simp [h1]

theorem mget_mdel {α : Type} (m : List (String × α)) (k k' : String) :
    mget (mdel m k) k' = if k = k' then none else mget m k' := by
  induction m with
  | nil => simp [mdel]
  | cons h t ih =>
    obtain ⟨k0, v0⟩ := h
    by_cases h0 : k0 = k
    · subst h0
      simp only [mdel, if_true]
      rw [ih]
      by_cases h1 : k0 = k' <;> simp [h1, mget]
    · simp only [mdel, if_neg h0, mget]
      by_cases h1 : k0 = k'
      · subst h1
        simp [Ne.symm h0, mget]
      · rw [ih]
        simp [h1]

theorem mdel_of_mget_eq_none {α : Type} (m : List (String × α)) (k : String)
    (h : mget m k = none) : mdel m k = m := by
  induction m with
  | nil => rfl
  | cons e t ih =>
    obtain ⟨k0, v0⟩ := e
    by_cases h0 : k0 = k
    · subst h0
      simp [mget] at h
    · simp only [mget, if_neg h0] at h
      simp [mdel, h0, ih h]

theorem mset_keys {α : Type} (m : List (String × α)) (k : String) (v : α) :
    (mset m k v).map Prod.fst =
      if (mget m k).isSome then m.map Prod.fst else m.map Prod.fst ++ [k] := by
  induction m with
  | nil => simp [mset]
  | cons e t ih =>
    obtain ⟨k0, v0⟩ := e
    by_cases h0 : k0 = k
    · subst h0
      simp [mset, mget]
    · simp only [mset, if_neg h0, mget, List.map_cons, ih]
      by_cases h1 : (mget t k).isSome
      · simp [h1]
      · simp [h1]

theorem mhas_mset {α : Type} (m : List (String × α)) (k k' : String) (v : α) :
    mhas (mset m k v) k' = true ↔ (k = k' ∨ mhas m k' = true) := by
  simp only [mhas, mget_mset]
  by_cases h : k = k' <;> simp [h]

/-- The composite keys of a part list under a fixed (prefix, category, repair type). -/
def partKeys (pfx categoryId torId : String) (parts : List Part) : List String :=
  parts.map fun p => getUKey pfx categoryId torId p.partNumber p.sOS

@[simp]
theorem partKeys_nil (pfx c t : String) : partKeys pfx c t [] = [] := rfl

@[simp]
theorem partKeys_cons (pfx c t : String) (p : Part) (rest : List Part) :
    partKeys pfx c t (p :: rest) =
      getUKey pfx c t p.partNumber p.sOS :: partKeys pfx c t rest := rfl

theorem mget_updateSelectedParts_false (pfx c t : String) (parts : List Part)
    (sel : List (String × CategorizedPart)) (k : String) :
    mget ((updateSelectedParts pfx c t false parts sel).1) k =
      if k ∈ partKeys pfx c t parts then none else mget sel k := by
  induction parts generalizing sel with
  | nil => simp [updateSelectedParts]
  | cons p rest ih =>
    simp only [updateSelectedParts, Bool.false_eq_true, if_false]
    rw [ih, mget_mdel]
    by_cases h1 : k ∈ partKeys pfx c t rest
    · simp [h1]
    · by_cases h2 : getUKey pfx c t p.partNumber p.sOS = k
      · simp [h1, h2]
      · simp [h1, h2, Ne.symm h2]

theorem updateSelectedParts_false_fst_eq_self (pfx c t : String) (parts : List Part)
    (sel : List (String × CategorizedPart))
    (h : ∀ p ∈ parts, mget sel (getUKey pfx c t p.partNumber p.sOS) = none) :
    (updateSelectedParts pfx c t false parts sel).1 = sel := by
  induction parts generalizing sel with
  | nil => rfl
  | cons p rest ih =>
    simp only [updateSelectedParts, Bool.false_eq_true, if_false]
    rw [mdel_of_mget_eq_none _ _ (h p (List.mem_cons_self p rest))]
    exact ih sel fun q hq => h q (List.mem_cons_of_mem p hq)

/-! ### The claims -/

theorem mget_updateSelectedParts_true_of_not_mem (pfx c t : String)
    (parts : List Part) (sel : List (String × CategorizedPart)) (k : String)
    (hk : k ∉ partKeys pfx c t parts) :
    mget ((updateSelectedParts pfx c t true parts sel).1) k = mget sel k := by
  induction parts generalizing sel with
  | nil => rfl
  | cons p rest ih =>
    simp only [partKeys_cons, List.mem_cons, not_or] at hk
    simp only [updateSelectedParts, if_true]
    have hne : ¬(getUKey pfx c t p.partNumber p.sOS = k) := fun h => hk.1 h.symm
    rw [ih _ hk.2, mget_mset, if_neg hne]

theorem prevQty_mset (sel : List (String × CategorizedPart)) (k0 k : String)
    (e : CategorizedPart) (he : e.qty = prevQty sel k0) :
    prevQty (mset sel k0 e) k = prevQty sel k := by
  simp only [prevQty, mget_mset]
  by_cases h : k0 = k
  · subst h
    simp only [if_true]
    exact he
  · simp [h]

/-- C10 — with `checked = true`, `updateSelectedParts` overwrites `qty` in place
on each caller-owned part record (prior registry quantity if its key was
selected, else 1) and returns those records; with `checked = false` the part
records come back unmodified. -/
theorem toggle_mutates_input_parts (pfx c t : String) (parts : List Part)
    (sel : List (String × CategorizedPart)) :
    (updateSelectedParts pfx c t true parts sel).2 =
      (parts.map fun p =>
        { p with qty := prevQty sel (getUKey pfx c t p.partNumber p.sOS) }) ∧
    (updateSelectedParts pfx c t false parts sel).2 = parts := by
  constructor
  · induction parts generalizing sel with
    | nil => rfl
    | cons p rest ih =>
      simp only [updateSelectedParts, if_true, List.map_cons, List.cons.injEq]
      refine ⟨trivial, ?_⟩
      rw [ih]
      exact List.map_congr_left fun q _ => by
        rw [prevQty_mset _ _ _ _ rfl]
  · induction parts generalizing sel with
    | nil => rfl
    | cons p rest ih =>
      simp only [updateSelectedParts, Bool.false_eq_true, if_false, List.cons.injEq]
      exact ⟨trivial, ih _⟩

/-- C1 — toggling on inserts, for each input part (distinct composite keys), an
entry under its key carrying `categoryId`, `torId`, the part's fields and the
prior quantity if previously selected (else 1); toggling off removes each
input part's key from the selected registry. -/
theorem toggle_parts_registry (pfx c t : String) (parts : List Part)
    (sel : List (String × CategorizedPart))
    (hnd : (partKeys pfx c t parts).Nodup) :
    (∀ p ∈ parts,
      mget ((updateSelectedParts pfx c t true parts sel).1)
          (getUKey pfx c t p.partNumber p.sOS) =
        some ⟨c, t, p.partNumber, p.sOS, p.isExcluded,
          prevQty sel (getUKey pfx c t p.partNumber p.sOS)⟩) ∧
    (∀ p ∈ parts,
      mget ((updateSelectedParts pfx c t false parts sel).1)
          (getUKey pfx c t p.partNumber p.sOS) = none) := by
  constructor
  · induction parts generalizing sel with
    | nil => intro p hp; cases hp
    | cons p rest ih =>
      simp only [partKeys_cons, List.nodup_cons] at hnd
      intro q hq
      rcases List.mem_cons.mp hq with hq | hq
      · subst hq
        simp only [updateSelectedParts, if_true]
        rw [mget_updateSelectedParts_true_of_not_mem _ _ _ _ _ _ hnd.1, mget_mset,
          if_pos rfl]
      · simp only [updateSelectedParts, if_true]
        rw [ih _ hnd.2 q hq, prevQty_mset _ _ _ _ rfl]
  · intro p hp
    rw [mget_updateSelectedParts_false]
    have : getUKey pfx c t p.partNumber p.sOS ∈ partKeys pfx c t parts := by
      simp only [partKeys, List.mem_map]
      exact ⟨p, hp, rfl⟩
    simp [this]

/-- Witness for C1 at a concrete single-part list over an empty registry. -/
theorem toggle_parts_registry_witness :
    (partKeys "u" "c1" "t1" [⟨"P1", "A", false, 5⟩]).Nodup ∧
    ((∀ p ∈ [(⟨"P1", "A", false, 5⟩ : Part)],
      mget ((updateSelectedParts "u" "c1" "t1" true [⟨"P1", "A", false, 5⟩] []).1)
          (getUKey "u" "c1" "t1" p.partNumber p.sOS) =
        some ⟨"c1", "t1", p.partNumber, p.sOS, p.isExcluded,
          prevQty [] (getUKey "u" "c1" "t1" p.partNumber p.sOS)⟩) ∧
    (∀ p ∈ [(⟨"P1", "A", false, 5⟩ : Part)],
      mget ((updateSelectedParts "u" "c1" "t1" false [⟨"P1", "A", false, 5⟩] []).1)
          (getUKey "u" "c1" "t1" p.partNumber p.sOS) = none)) :=
  ⟨List.nodup_singleton _,
    toggle_parts_registry "u" "c1" "t1" [⟨"P1", "A", false, 5⟩] [] (List.nodup_singleton _)⟩

/-- C5 — deselection is idempotent: applying `updateSelectedParts` with
`checked = false` to the same parts twice yields the same selected registry as
applying it once, and deleting the key of a part that is not selected leaves
the registry unchanged. -/
theorem deselect_idempotent (pfx c t : String) (parts : List Part) (p : Part)
    (sel : List (String × CategorizedPart))
    (h : mget sel (getUKey pfx c t p.partNumber p.sOS) = none) :
    (updateSelectedParts pfx c t false parts
        ((updateSelectedParts pfx c t false parts sel).1)).1 =
      (updateSelectedParts pfx c t false parts sel).1 ∧
    (updateSelectedParts pfx c t false [p] sel).1 = sel := by
  constructor
  · apply updateSelectedParts_false_fst_eq_self
    intro q hq
    rw [mget_updateSelectedParts_false]
    have : getUKey pfx c t q.partNumber q.sOS ∈ partKeys pfx c t parts := by
      simp only [partKeys, List.mem_map]
      exact ⟨q, hq, rfl⟩
    simp [this]
  · apply updateSelectedParts_false_fst_eq_self
    intro q hq
    simp only [List.mem_singleton] at hq
    subst hq
    exact h

/-- Witness for C5 at a concrete deselected part and empty registry. -/
theorem deselect_idempotent_witness :
    mget ([] : List (String × CategorizedPart))
        (getUKey "u" "c1" "t1" "P1" "A") = none ∧
    ((updateSelectedParts "u" "c1" "t1" false [⟨"P1", "A", false, 1⟩]
        ((updateSelectedParts "u" "c1" "t1" false [⟨"P1", "A", false, 1⟩] []).1)).1 =
      (updateSelectedParts "u" "c1" "t1" false [⟨"P1", "A", false, 1⟩] []).1 ∧
    (updateSelectedParts "u" "c1" "t1" false [(⟨"P1", "A", false, 1⟩ : Part)] []).1 = []) :=
  ⟨rfl, deselect_idempotent "u" "c1" "t1" [⟨"P1", "A", false, 1⟩] ⟨"P1", "A", false, 1⟩ [] rfl⟩

theorem mhas_overlay_foldl (pfx : String) (P : List CategorizedPart)
    (m : List (String × CategorizedPart)) (k : String) :
    mhas (P.foldl
        (fun m p => mset m (getUKey pfx p.categoryId p.torId p.partNumber p.sOS) p) m) k = true ↔
      k ∈ (P.map fun p => getUKey pfx p.categoryId p.torId p.partNumber p.sOS) ∨
        mhas m k = true := by
  induction P generalizing m with
  | nil => simp
  | cons p rest ih =>
    simp only [List.foldl_cons, List.map_cons, List.mem_cons]
    rw [ih, mhas_mset]
    tauto

/-- C3 — `updatePricesInfo` makes the checked registry's key set exactly the
composite keys of the given priced parts (nothing from before survives), and
leaves the selected registry untouched. -/
theorem overlay_prices_replaces_checked (P : List CategorizedPart) (s : State) :
    (∀ k, mhas (updatePricesInfo P s).checkedParts k = true ↔
        k ∈ (P.map fun p =>
          getUKey s.uKeyPfx p.categoryId p.torId p.partNumber p.sOS)) ∧
    (updatePricesInfo P s).selectedParts = s.selectedParts := by
  refine ⟨fun k => ?_, rfl⟩
  simp only [updatePricesInfo]
  rw [mhas_overlay_foldl]
  simp [mhas]

/-- C2 — `isAllPartsInCategorySelected` is true iff every part of every repair
type of the category (both lists) has its composite key in the selected
registry; empty lists and zero repair types are vacuously selected. -/
theorem isAllPartsInCategorySelected_iff
    (sel : List (String × CategorizedPart)) (pfx : String)
    (category : SNRCategory) (rts : List TOR)
    (h : category.repairTypes = some rts) :
    isAllPartsInCategorySelected sel pfx category = true ↔
      ∀ tor ∈ rts, ∀ p ∈ tor.partsIncluded ++ tor.partsExcluded,
        mhas sel (getUKey pfx category.categoryId tor.torId p.partNumber p.sOS) = true := by
  simp only [isAllPartsInCategorySelected, h, List.all_eq_true, List.mem_map, id,
    forall_exists_index, and_imp, forall_apply_eq_imp_iff₂, List.mem_append,
    List.all_append, Bool.and_eq_true]
  constructor
  · rintro h' tor htor p (hp | hp)
    · exact (h' tor htor).1 p hp
    · exact (h' tor htor).2 p hp
  · intro h' tor htor
    exact ⟨fun p hp => h' tor htor p (Or.inl hp), fun p hp => h' tor htor p (Or.inr hp)⟩

/-- Witness for C2: a category with one repair type whose part lists are empty
is vacuously fully selected even with an empty registry. -/
theorem isAllPartsInCategorySelected_iff_witness :
    (SNRCategory.mk "c1" "Cat" (some [⟨"t1", "Tor", [], []⟩])).repairTypes =
      some [⟨"t1", "Tor", [], []⟩] ∧
    (isAllPartsInCategorySelected [] "u"
        (SNRCategory.mk "c1" "Cat" (some [⟨"t1", "Tor", [], []⟩])) = true ↔
      ∀ tor ∈ [(⟨"t1", "Tor", [], []⟩ : TOR)],
        ∀ p ∈ tor.partsIncluded ++ tor.partsExcluded,
          mhas ([] : List (String × CategorizedPart))
            (getUKey "u" "c1" tor.torId p.partNumber p.sOS) = true) :=
  ⟨rfl, isAllPartsInCategorySelected_iff [] "u" _ _ rfl⟩

/-- C4 — `qtyChanged(q)` empties the checked registry, sets every selected
entry's quantity to `q`, and leaves the selected registry's key list unchanged. -/
theorem qtyChanged_clears_checked_and_sets_qty (q : Int) (s : State) :
    (qtyChanged q s).checkedParts = [] ∧
    (∀ e ∈ (qtyChanged q s).selectedParts, e.2.qty = q) ∧
    (qtyChanged q s).selectedParts.map Prod.fst = s.selectedParts.map Prod.fst := by
  refine ⟨rfl, ?_, ?_⟩
  · intro e he
    simp only [qtyChanged, List.mem_map] at he
    obtain ⟨a, -, rfl⟩ := he
    rfl
  · simp [qtyChanged]

/-- Witness for C4 on a concrete state with one selected and one checked entry. -/
theorem qtyChanged_clears_checked_and_sets_qty_witness :
    (qtyChanged 7 ⟨"u", [("k1", ⟨"c1", "t1", "P1", "A", false, 2⟩)],
        [("k2", ⟨"c1", "t1", "P2", "B", true, 3⟩)], [], [], none, []⟩).checkedParts = [] ∧
    (∀ e ∈ (qtyChanged 7 ⟨"u", [("k1", ⟨"c1", "t1", "P1", "A", false, 2⟩)],
        [("k2", ⟨"c1", "t1", "P2", "B", true, 3⟩)], [], [], none, []⟩).selectedParts,
      e.2.qty = 7) ∧
    (qtyChanged 7 ⟨"u", [("k1", ⟨"c1", "t1", "P1", "A", false, 2⟩)],
        [("k2", ⟨"c1", "t1", "P2", "B", true, 3⟩)], [], [], none, []⟩).selectedParts.map
        Prod.fst =
      (State.mk "u" [("k1", ⟨"c1", "t1", "P1", "A", false, 2⟩)]
        [("k2", ⟨"c1", "t1", "P2", "B", true, 3⟩)] [] [] none []).selectedParts.map
        Prod.fst :=
  qtyChanged_clears_checked_and_sets_qty 7 _

/-- C8 counterexample — with an absent category list, `createPartsMatrix` does
not produce the outputs of a build on the empty list: the early return sets
`torColumns` but skips the `this.partsMatrix` assignment, so a previously built
matrix survives instead of becoming empty. -/
theorem build_absent_keeps_stale_matrix :
    (createPartsMatrix none
        ⟨"u", [], [], [], [], some [("t1", [("c1", ⟨[], []⟩)])], ["t1"]⟩).partsMatrix ≠
      (createPartsMatrix (some [])
        ⟨"u", [], [], [], [], some [("t1", [("c1", ⟨[], []⟩)])], ["t1"]⟩).partsMatrix := by
  simp [createPartsMatrix, buildCats, torColumnsOf]

/-- C8 (amended) — `createPartsMatrix` is total; an absent category list yields
an empty column order, like a build on the empty list, but leaves `partsMatrix`
at its prior value, whereas a build on the empty list sets it to the empty
matrix. -/
theorem build_absent_vs_empty (s : State) :
    (createPartsMatrix none s).torColumns = [] ∧
    (createPartsMatrix none s).partsMatrix = s.partsMatrix ∧
    (createPartsMatrix (some []) s).partsMatrix = some [] ∧
    (createPartsMatrix (some []) s).torColumns = [] :=
  ⟨rfl, rfl, rfl, rfl⟩

theorem mget_isSome_mset {α : Type} (m : List (String × α)) (k k' : String) (v : α)
    (h : (mget m k).isSome = true) : (mget (mset m k' v) k).isSome = true := by
  rw [mget_mset]
  by_cases h' : k' = k <;> simp [h', h]

theorem buildTors_categoriesById (cid : String) (tors : List TOR) (acc : BuildAcc) :
    (buildTors cid tors acc).categoriesById = acc.categoriesById := by
  induction tors generalizing acc with
  | nil => rfl
  | cons tor rest ih => simp only [buildTors]; rw [ih]

theorem buildTors_torsById_isSome (cid : String) (tors : List TOR) (acc : BuildAcc)
    (k : String) (h : (mget acc.torsById k).isSome = true) :
    (mget (buildTors cid tors acc).torsById k).isSome = true := by
  induction tors generalizing acc with
  | nil => exact h
  | cons tor rest ih =>
    simp only [buildTors]
    exact ih _ (mget_isSome_mset _ _ _ _ h)

theorem buildCats_byId_isSome (cats : List SNRCategory) (acc : BuildAcc) (k k' : String)
    (hc : (mget acc.categoriesById k).isSome = true)
    (ht : (mget acc.torsById k').isSome = true) :
    (mget (buildCats cats acc).categoriesById k).isSome = true ∧
    (mget (buildCats cats acc).torsById k').isSome = true := by
  induction cats generalizing acc with
  | nil => exact ⟨hc, ht⟩
  | cons c rest ih =>
    simp only [buildCats]
    match hrts : c.repairTypes with
    | none => exact ih _ hc ht
    | some rts =>
      refine ih _ ?_ ?_
      · rw [buildTors_categoriesById]
        exact mget_isSome_mset _ _ _ _ hc
      · exact buildTors_torsById_isSome _ _ _ _ ht

theorem createPartsMatrix_byId_isSome (cats : Option (List SNRCategory)) (s : State)
    (k k' : String)
    (hc : (mget s.categoriesById k).isSome = true)
    (ht : (mget s.torsById k').isSome = true) :
    (mget (createPartsMatrix cats s).categoriesById k).isSome = true ∧
    (mget (createPartsMatrix cats s).torsById k').isSome = true := by
  match cats with
  | none => exact ⟨hc, ht⟩
  | some cats => exact buildCats_byId_isSome cats _ k k' hc ht

/-- C9 — the `categoriesById` and `torsById` lookups grow monotonically: every
id present after one `createPartsMatrix` call is still present after a second
call, whatever catalog (including one lacking the id) the second call gets. -/
theorem lookup_tables_monotone (s : State)
    (cats1 cats2 : Option (List SNRCategory)) (k k' : String)
    (hc : (mget (createPartsMatrix cats1 s).categoriesById k).isSome = true)
    (ht : (mget (createPartsMatrix cats1 s).torsById k').isSome = true) :
    (mget (createPartsMatrix cats2 (createPartsMatrix cats1 s)).categoriesById k).isSome
        = true ∧
    (mget (createPartsMatrix cats2 (createPartsMatrix cats1 s)).torsById k').isSome
        = true :=
  createPartsMatrix_byId_isSome cats2 _ k k' hc ht

/-- Witness for C9: an id recorded by a first build survives a rebuild whose
catalog no longer mentions it. -/
theorem lookup_tables_monotone_witness :
    ((mget (createPartsMatrix
        (some [⟨"c1", "Cat", some [⟨"t1", "Tor", [], []⟩]⟩])
        ⟨"u", [], [], [], [], none, []⟩).categoriesById "c1").isSome = true) ∧
    ((mget (createPartsMatrix
        (some [⟨"c1", "Cat", some [⟨"t1", "Tor", [], []⟩]⟩])
        ⟨"u", [], [], [], [], none, []⟩).torsById "t1").isSome = true) ∧
    (((mget (createPartsMatrix (some []) (createPartsMatrix
        (some [⟨"c1", "Cat", some [⟨"t1", "Tor", [], []⟩]⟩])
        ⟨"u", [], [], [], [], none, []⟩)).categoriesById "c1").isSome = true) ∧
    ((mget (createPartsMatrix (some []) (createPartsMatrix
        (some [⟨"c1", "Cat", some [⟨"t1", "Tor", [], []⟩]⟩])
        ⟨"u", [], [], [], [], none, []⟩)).torsById "t1").isSome = true)) :=
  ⟨rfl, rfl, lookup_tables_monotone _ _ (some []) "c1" "t1" rfl rfl⟩

/-! ### C6 — matrix cell contents -/

/-- Nested lookup `partsMatrix[torId][categoryId]`. -/
def mget2 (m : Matrix) (torId categoryId : String) : Option DividedParts :=
  match mget m torId with
  | none => none
  | some row => mget row categoryId

/-- The `(torId, categoryId)` cells written while processing one category's
repair types. -/
def torWrites (categoryId : String) (tors : List TOR) : List (String × String) :=
  tors.map fun tor => (tor.torId, categoryId)

/-- The `(torId, categoryId)` cells written by a whole build, in write order;
categories without a `repairTypes` list write nothing. -/
def catWrites : List SNRCategory → List (String × String)
  | [] => []
  | c :: rest =>
    match c.repairTypes with
    | none => catWrites rest
    | some rts => torWrites c.categoryId rts ++ catWrites rest

theorem mget_append_singleton {α : Type} (m : List (String × α)) (t : String) (v : α)
    (k : String) :
    mget (m ++ [(t, v)]) k =
      match mget m k with
      | some w => some w
      | none => if t = k then some v else none := by
  induction m with
  | nil => simp [mget]
  | cons e rest ih =>
    obtain ⟨k0, v0⟩ := e
    by_cases h0 : k0 = k
    · simp [mget, h0]
    · simp only [List.cons_append, mget, if_neg h0]
      exact ih

theorem mget2_matrixSet (m : Matrix) (t c : String) (cell : DividedParts)
    (t' c' : String) :
    mget2 (matrixSet m t c cell) t' c' =
      if t = t' ∧ c = c' then some cell else mget2 m t' c' := by
  simp only [matrixSet]
  match h : mget m t with
  | none =>
    simp only [mget2, mget_append_singleton]
    by_cases h1 : t = t'
    · subst h1
      rw [h]
      simp only [if_true, true_and]
      by_cases h2 : c = c'
      · simp [h2, mget]
      · simp [h2, mget, h]
    · match h3 : mget m t' with
      | none => simp [h1]
      | some row => simp [h1]
  | some row =>
    simp only [mget2, mget_mset]
    by_cases h1 : t = t'
    · subst h1
      rw [h]
      simp only [if_true, true_and]
      by_cases h2 : c = c'
      · simp [h2, mget_mset]
      · simp [h2, mget_mset]
    · simp [h1]

/-- All parts reachable through any cell's excluded list carry the flag. -/
def ExcludedFlagged (m : Matrix) : Prop :=
  ∀ t c cell, mget2 m t c = some cell → ∀ p ∈ cell.excluded, p.isExcluded = true

theorem excludedFlagged_matrixSet (m : Matrix) (t c : String) (cell : DividedParts)
    (hm : ExcludedFlagged m) (hc : ∀ p ∈ cell.excluded, p.isExcluded = true) :
    ExcludedFlagged (matrixSet m t c cell) := by
  intro t' c' cell' h' p hp
  rw [mget2_matrixSet] at h'
  by_cases h1 : t = t' ∧ c = c'
  · rw [if_pos h1] at h'
    cases h'
    exact hc p hp
  · rw [if_neg h1] at h'
    exact hm t' c' cell' h' p hp

theorem excludedFlagged_buildTors (cid : String) (tors : List TOR) (acc : BuildAcc)
    (hm : ExcludedFlagged acc.matrix) :
    ExcludedFlagged (buildTors cid tors acc).matrix := by
  induction tors generalizing acc with
  | nil => exact hm
  | cons tor rest ih =>
    simp only [buildTors]
    refine ih _ (excludedFlagged_matrixSet _ _ _ _ hm ?_)
    intro p hp
    simp only [List.mem_map] at hp
    obtain ⟨q, -, rfl⟩ := hp
    rfl

theorem excludedFlagged_buildCats (cats : List SNRCategory) (acc : BuildAcc)
    (hm : ExcludedFlagged acc.matrix) :
    ExcludedFlagged (buildCats cats acc).matrix := by
  induction cats generalizing acc with
  | nil => exact hm
  | cons c rest ih =>
    simp only [buildCats]
    match c.repairTypes with
    | none => exact ih _ hm
    | some rts => exact ih _ (excludedFlagged_buildTors _ _ _ hm)

theorem mget2_buildTors_of_not_mem (cid : String) (tors : List TOR) (acc : BuildAcc)
    (t' c' : String) (h : (t', c') ∉ torWrites cid tors) :
    mget2 (buildTors cid tors acc).matrix t' c' = mget2 acc.matrix t' c' := by
  induction tors generalizing acc with
  | nil => rfl
  | cons tor rest ih =>
    simp only [torWrites, List.map_cons, List.mem_cons, not_or] at h
    simp only [buildTors]
    rw [ih _ h.2, mget2_matrixSet, if_neg]
    intro hcontra
    exact h.1 (by rw [hcontra.1, hcontra.2])

theorem mget2_buildCats_of_not_mem (cats : List SNRCategory) (acc : BuildAcc)
    (t' c' : String) (h : (t', c') ∉ catWrites cats) :
    mget2 (buildCats cats acc).matrix t' c' = mget2 acc.matrix t' c' := by
  induction cats generalizing acc with
  | nil => rfl
  | cons c rest ih =>
    simp only [buildCats]
    match hrts : c.repairTypes with
    | none =>
      simp only [catWrites, hrts] at h
      exact ih _ h
    | some rts =>
      simp only [catWrites, hrts, List.mem_append, not_or] at h
      rw [ih _ h.2, mget2_buildTors_of_not_mem _ _ _ _ _ h.1]

theorem mget2_buildTors_cell (cid : String) (tors : List TOR) (acc : BuildAcc)
    (hnd : (torWrites cid tors).Nodup) :
    ∀ tor ∈ tors,
      mget2 (buildTors cid tors acc).matrix tor.torId cid =
        some ⟨tor.partsIncluded,
          tor.partsExcluded.map fun p => { p with isExcluded := true }⟩ := by
  induction tors generalizing acc with
  | nil => intro tor htor; cases htor
  | cons tor0 rest ih =>
    simp only [torWrites, List.map_cons, List.nodup_cons] at hnd
    intro tor htor
    rcases List.mem_cons.mp htor with htor | htor
    · subst htor
      simp only [buildTors]
      rw [mget2_buildTors_of_not_mem _ _ _ _ _ hnd.1, mget2_matrixSet,
        if_pos ⟨rfl, rfl⟩]
    · simp only [buildTors]
      exact ih _ hnd.2 tor htor

theorem mget2_buildCats_cell (cats : List SNRCategory) (acc : BuildAcc)
    (hnd : (catWrites cats).Nodup) :
    ∀ c ∈ cats, ∀ rts, c.repairTypes = some rts → ∀ tor ∈ rts,
      mget2 (buildCats cats acc).matrix tor.torId c.categoryId =
        some ⟨tor.partsIncluded,
          tor.partsExcluded.map fun p => { p with isExcluded := true }⟩ := by
  induction cats generalizing acc with
  | nil => intro c hc; cases hc
  | cons c0 rest ih =>
    intro c hc rts hrts tor htor
    rcases List.mem_cons.mp hc with hc | hc
    · subst hc
      simp only [buildCats, hrts]
      simp only [catWrites, hrts, List.nodup_append] at hnd
      rw [mget2_buildCats_of_not_mem _ _ _ _
          (fun hmem => hnd.2.2 (by
            simp only [torWrites, List.mem_map]
            exact ⟨tor, htor, rfl⟩) hmem)]
      exact mget2_buildTors_cell _ _ _ hnd.1 tor htor
    · simp only [buildCats]
      match hrts0 : c0.repairTypes with
      | none =>
        simp only [catWrites, hrts0] at hnd
        exact ih _ hnd c hc rts hrts tor htor
      | some rts0 =>
        simp only [catWrites, hrts0, List.nodup_append] at hnd
        exact ih _ hnd.2.1 c hc rts hrts tor htor

/-- C6 — after a build, the cell of each (category, repair type) of the input
(cells are written once when the write pairs are distinct) holds the repair
type's included list verbatim and its excluded list with `isExcluded` forced
`true`; moreover every part reachable through any cell's excluded list carries
the flag. -/
theorem build_matrix_cells (cats : List SNRCategory) (s : State)
    (hnd : (catWrites cats).Nodup) :
    (createPartsMatrix (some cats) s).partsMatrix =
      some (buildCats cats ⟨[], s.categoriesById, s.torsById⟩).matrix ∧
    (∀ c ∈ cats, ∀ rts, c.repairTypes = some rts → ∀ tor ∈ rts,
      mget2 (buildCats cats ⟨[], s.categoriesById, s.torsById⟩).matrix
          tor.torId c.categoryId =
        some ⟨tor.partsIncluded,
          tor.partsExcluded.map fun p => { p with isExcluded := true }⟩) ∧
    (∀ t c cell,
      mget2 (buildCats cats ⟨[], s.categoriesById, s.torsById⟩).matrix t c =
          some cell →
        ∀ p ∈ cell.excluded, p.isExcluded = true) :=
  ⟨rfl, mget2_buildCats_cell cats _ hnd,
    excludedFlagged_buildCats cats _ (fun t c cell h => by cases h)⟩

/-- Witness for C6: one category, one repair type, an excluded part whose
source record negates the flag. -/
theorem build_matrix_cells_witness :
    (catWrites [⟨"c1", "Cat",
        some [⟨"t1", "Tor", [⟨"P1", "A", false, 1⟩], [⟨"P2", "B", false, 1⟩]⟩]⟩]).Nodup ∧
    ((createPartsMatrix
        (some [⟨"c1", "Cat",
          some [⟨"t1", "Tor", [⟨"P1", "A", false, 1⟩], [⟨"P2", "B", false, 1⟩]⟩]⟩])
        ⟨"u", [], [], [], [], none, []⟩).partsMatrix =
      some (buildCats
        [⟨"c1", "Cat",
          some [⟨"t1", "Tor", [⟨"P1", "A", false, 1⟩], [⟨"P2", "B", false, 1⟩]⟩]⟩]
        ⟨[], [], []⟩).matrix ∧
    (∀ c ∈ [(⟨"c1", "Cat",
        some [⟨"t1", "Tor", [⟨"P1", "A", false, 1⟩], [⟨"P2", "B", false, 1⟩]⟩]⟩ :
          SNRCategory)],
      ∀ rts, c.repairTypes = some rts → ∀ tor ∈ rts,
        mget2 (buildCats
            [⟨"c1", "Cat",
              some [⟨"t1", "Tor", [⟨"P1", "A", false, 1⟩], [⟨"P2", "B", false, 1⟩]⟩]⟩]
            ⟨[], [], []⟩).matrix tor.torId c.categoryId =
          some ⟨tor.partsIncluded,
            tor.partsExcluded.map fun p => { p with isExcluded := true }⟩) ∧
    (∀ t c cell,
      mget2 (buildCats
          [⟨"c1", "Cat",
            some [⟨"t1", "Tor", [⟨"P1", "A", false, 1⟩], [⟨"P2", "B", false, 1⟩]⟩]⟩]
          ⟨[], [], []⟩).matrix t c = some cell →
        ∀ p ∈ cell.excluded, p.isExcluded = true)) :=
  ⟨List.nodup_singleton _,
    build_matrix_cells _ ⟨"u", [], [], [], [], none, []⟩ (List.nodup_singleton _)⟩

/-! ### C7 — column ordering -/

theorem insertByCountDesc_perm (x : String × Nat) (l : List (String × Nat)) :
    List.Perm (insertByCountDesc x l) (x :: l) := by
  induction l with
  | nil => rfl
  | cons h t ih =>
    simp only [insertByCountDesc]
    by_cases hc : x.2 ≤ h.2
    · rw [if_pos hc]
      exact (ih.cons h).trans (List.Perm.swap x h t)
    · rw [if_neg hc]

theorem sortByCountDesc_foldl_perm (l acc : List (String × Nat)) :
    List.Perm (l.foldl (fun acc x => insertByCountDesc x acc) acc) (acc ++ l) := by
  induction l generalizing acc with
  | nil => simp
  | cons x t ih =>
    simp only [List.foldl_cons]
    refine (ih (insertByCountDesc x acc)).trans ?_
    refine ((insertByCountDesc_perm x acc).append_right t).trans ?_
    rw [List.cons_append]
    exact List.perm_middle.symm

theorem sortByCountDesc_perm (l : List (String × Nat)) :
    List.Perm (sortByCountDesc l) l :=
  (sortByCountDesc_foldl_perm l []).trans (by simp)

theorem mem_insertByCountDesc (a x : String × Nat) (l : List (String × Nat)) :
    a ∈ insertByCountDesc x l ↔ a = x ∨ a ∈ l := by
  rw [(insertByCountDesc_perm x l).mem_iff, List.mem_cons]

theorem insertByCountDesc_pairwise (x : String × Nat) (l : List (String × Nat))
    (hl : l.Pairwise fun a b => b.2 ≤ a.2) :
    (insertByCountDesc x l).Pairwise fun a b => b.2 ≤ a.2 := by
  induction l with
  | nil => simp [insertByCountDesc]
  | cons h t ih =>
    rw [List.pairwise_cons] at hl
    simp only [insertByCountDesc]
    by_cases hc : x.2 ≤ h.2
    · rw [if_pos hc, List.pairwise_cons]
      refine ⟨fun a ha => ?_, ih hl.2⟩
      rcases (mem_insertByCountDesc a x t).mp ha with rfl | ha
      · exact hc
      · exact hl.1 a ha
    · rw [if_neg hc, List.pairwise_cons]
      push_neg at hc
      refine ⟨fun a ha => ?_, List.pairwise_cons.mpr hl⟩
      rcases List.mem_cons.mp ha with rfl | ha
      · exact le_of_lt hc
      · exact le_trans (hl.1 a ha) (le_of_lt hc)

theorem sortByCountDesc_foldl_pairwise (l acc : List (String × Nat))
    (hacc : acc.Pairwise fun a b => b.2 ≤ a.2) :
    (l.foldl (fun acc x => insertByCountDesc x acc) acc).Pairwise
      fun a b => b.2 ≤ a.2 := by
  induction l generalizing acc with
  | nil => exact hacc
  | cons x t ih => exact ih _ (insertByCountDesc_pairwise x acc hacc)

theorem sortByCountDesc_pairwise (l : List (String × Nat)) :
    (sortByCountDesc l).Pairwise fun a b => b.2 ≤ a.2 :=
  sortByCountDesc_foldl_pairwise l [] List.Pairwise.nil

theorem filter_count_eq_nil_of_head_lt (h : String × Nat) (t : List (String × Nat))
    (n : Nat) (hs : (h :: t).Pairwise fun a b => b.2 ≤ a.2) (hlt : h.2 < n) :
    (h :: t).filter (fun y => y.2 == n) = [] := by
  rw [List.pairwise_cons] at hs
  rw [List.filter_eq_nil_iff]
  intro a ha
  rcases List.mem_cons.mp ha with rfl | ha
  · simp only [beq_iff_eq]
    omega
  · have := hs.1 a ha
    simp only [beq_iff_eq]
    omega

theorem filter_insertByCountDesc (x : String × Nat) (l : List (String × Nat))
    (n : Nat) (hs : l.Pairwise fun a b => b.2 ≤ a.2) :
    (insertByCountDesc x l).filter (fun y => y.2 == n) =
      l.filter (fun y => y.2 == n) ++ if x.2 = n then [x] else [] := by
  induction l with
  | nil =>
    simp only [insertByCountDesc, List.filter_nil, List.nil_append]
    by_cases hx : x.2 = n
    · simp [List.filter_cons, hx]
    · have hb : (x.2 == n) = false := by simp [hx]
      simp [List.filter_cons, hb, hx]
  | cons h t ih =>
    simp only [insertByCountDesc]
    by_cases hc : x.2 ≤ h.2
    · rw [if_pos hc]
      rw [List.pairwise_cons] at hs
      by_cases hh : h.2 = n
      · simp [List.filter_cons, hh, ih hs.2]
      · have hb : (h.2 == n) = false := by simp [hh]
        simp [List.filter_cons, hb, ih hs.2]
    · rw [if_neg hc]
      push_neg at hc
      by_cases hx : x.2 = n
      · have hnil : (h :: t).filter (fun y => y.2 == n) = [] :=
          filter_count_eq_nil_of_head_lt h t n hs (by omega)
        simp [List.filter_cons, hx, hnil]
      · have : (x.2 == n) = false := by simp [hx]
        simp [List.filter_cons, this, hx]

theorem sortByCountDesc_foldl_filter (l acc : List (String × Nat)) (n : Nat)
    (hacc : acc.Pairwise fun a b => b.2 ≤ a.2) :
    (l.foldl (fun acc x => insertByCountDesc x acc) acc).filter (fun y => y.2 == n) =
      acc.filter (fun y => y.2 == n) ++ l.filter (fun y => y.2 == n) := by
  induction l generalizing acc with
  | nil => simp
  | cons x t ih =>
    simp only [List.foldl_cons]
    rw [ih _ (insertByCountDesc_pairwise x acc hacc),
      filter_insertByCountDesc x acc n hacc]
    by_cases hx : x.2 = n
    · simp [List.filter_cons, hx]
    · have hb : (x.2 == n) = false := by simp [hx]
      simp [List.filter_cons, hb, hx]

/-- Stability of the column sort: elements of equal count keep their relative
(encounter) order. -/
theorem sortByCountDesc_filter (l : List (String × Nat)) (n : Nat) :
    (sortByCountDesc l).filter (fun y => y.2 == n) = l.filter (fun y => y.2 == n) := by
  rw [sortByCountDesc, sortByCountDesc_foldl_filter l [] n List.Pairwise.nil]
  rfl

theorem mget_isSome_iff_mem_keys {α : Type} (m : List (String × α)) (k : String) :
    (mget m k).isSome = true ↔ k ∈ m.map Prod.fst := by
  induction m with
  | nil => simp [mget]
  | cons e t ih =>
    obtain ⟨k0, v0⟩ := e
    by_cases h : k0 = k
    · simp [mget, h]
    · rw [List.map_cons, List.mem_cons]
      simp only [mget, if_neg h, ih]
      constructor
      · exact Or.inr
      · rintro (rfl | hk)
        · exact absurd rfl h
        · exact hk

/-- First occurrences of a key sequence, skipping keys already seen: the order
in which object keys are first inserted. -/
def firstDedupAux (seen : List String) : List String → List String
  | [] => []
  | x :: t =>
    if x ∈ seen then firstDedupAux seen t else x :: firstDedupAux (x :: seen) t

theorem firstDedupAux_congr (seen1 seen2 : List String) (l : List String)
    (h : ∀ y, y ∈ seen1 ↔ y ∈ seen2) :
    firstDedupAux seen1 l = firstDedupAux seen2 l := by
  induction l generalizing seen1 seen2 with
  | nil => rfl
  | cons x t ih =>
    simp only [firstDedupAux]
    by_cases hx : x ∈ seen1
    · rw [if_pos hx, if_pos ((h x).mp hx), ih _ _ h]
    · rw [if_neg hx, if_neg (fun hc => hx ((h x).mpr hc)),
        ih (x :: seen1) (x :: seen2) (fun y => by simp [h y])]

theorem firstDedupAux_append (seen l1 l2 : List String) :
    firstDedupAux seen (l1 ++ l2) =
      firstDedupAux seen l1 ++ firstDedupAux (seen ++ firstDedupAux seen l1) l2 := by
  induction l1 generalizing seen with
  | nil => simp [firstDedupAux]
  | cons x t ih =>
    simp only [List.cons_append, firstDedupAux, List.append_eq]
    by_cases hx : x ∈ seen
    · rw [if_pos hx, if_pos hx, ih]
    · rw [if_neg hx, if_neg hx, ih, List.cons_append]
      congr 1
      congr 1
      exact firstDedupAux_congr _ _ _ fun y => by
        simp only [List.mem_append, List.mem_cons]
        tauto

theorem firstDedupAux_nodup (seen l : List String) :
    (firstDedupAux seen l).Nodup ∧ ∀ x ∈ firstDedupAux seen l, x ∉ seen := by
  induction l generalizing seen with
  | nil => simp [firstDedupAux]
  | cons x t ih =>
    simp only [firstDedupAux]
    by_cases hx : x ∈ seen
    · rw [if_pos hx]
      exact ih seen
    · rw [if_neg hx]
      obtain ⟨hnd, hmem⟩ := ih (x :: seen)
      refine ⟨List.nodup_cons.mpr
        ⟨fun hc => (hmem x hc) (List.mem_cons_self x seen), hnd⟩, ?_⟩
      intro y hy
      rcases List.mem_cons.mp hy with rfl | hy
      · exact hx
      · exact fun hc => hmem y hy (List.mem_cons_of_mem _ hc)

theorem matrixSet_keys (m : Matrix) (t c : String) (cell : DividedParts) :
    (matrixSet m t c cell).map Prod.fst =
      if (mget m t).isSome then m.map Prod.fst else m.map Prod.fst ++ [t] := by
  simp only [matrixSet]
  cases h : mget m t with
  | none => simp
  | some row =>
    rw [mset_keys]
    simp [h]

@[simp]
theorem torWrites_map_fst (cid : String) (tors : List TOR) :
    (torWrites cid tors).map Prod.fst = tors.map TOR.torId := by
  simp [torWrites, List.map_map, Function.comp]

theorem buildTors_keys (cid : String) (tors : List TOR) (acc : BuildAcc) :
    (buildTors cid tors acc).matrix.map Prod.fst =
      acc.matrix.map Prod.fst ++
        firstDedupAux (acc.matrix.map Prod.fst) (tors.map TOR.torId) := by
  induction tors generalizing acc with
  | nil => simp [buildTors, firstDedupAux]
  | cons tor rest ih =>
    simp only [buildTors, List.map_cons, firstDedupAux]
    rw [ih, matrixSet_keys]
    by_cases hx : tor.torId ∈ acc.matrix.map Prod.fst
    · have hsome : (mget acc.matrix tor.torId).isSome = true :=
        (mget_isSome_iff_mem_keys _ _).mpr hx
      rw [if_pos hsome, if_pos hx]
    · have hnone : ¬((mget acc.matrix tor.torId).isSome = true) :=
        fun hc => hx ((mget_isSome_iff_mem_keys _ _).mp hc)
      rw [if_neg hnone, if_neg hx, List.append_assoc, List.singleton_append]
      congr 2
      exact firstDedupAux_congr _ _ _ fun y => by
        simp only [List.mem_append, List.mem_cons, List.mem_singleton]
        tauto

theorem buildCats_keys (cats : List SNRCategory) (acc : BuildAcc) :
    (buildCats cats acc).matrix.map Prod.fst =
      acc.matrix.map Prod.fst ++
        firstDedupAux (acc.matrix.map Prod.fst) ((catWrites cats).map Prod.fst) := by
  induction cats generalizing acc with
  | nil => simp [buildCats, catWrites, firstDedupAux]
  | cons c rest ih =>
    simp only [buildCats]
    cases hrts : c.repairTypes with
    | none =>
      simp only [catWrites, hrts]
      exact ih acc
    | some rts =>
      simp only [catWrites, hrts, List.map_append, torWrites_map_fst]
      rw [ih, buildTors_keys, firstDedupAux_append, List.append_assoc]

theorem mem_mset {α : Type} (m : List (String × α)) (k : String) (v : α)
    (a : String × α) (ha : a ∈ mset m k v) : a = (k, v) ∨ a ∈ m := by
  induction m with
  | nil =>
    simp only [mset, List.mem_singleton] at ha
    exact Or.inl ha
  | cons e t ih =>
    obtain ⟨k0, v0⟩ := e
    simp only [mset] at ha
    by_cases h : k0 = k
    · rw [if_pos h] at ha
      rcases List.mem_cons.mp ha with rfl | ha
      · exact Or.inl rfl
      · exact Or.inr (List.mem_cons_of_mem _ ha)
    · rw [if_neg h] at ha
      rcases List.mem_cons.mp ha with rfl | ha
      · exact Or.inr (List.mem_cons_self _ _)
      · rcases ih ha with h' | h'
        · exact Or.inl h'
        · exact Or.inr (List.mem_cons_of_mem _ h')

theorem mget_eq_some_mem {α : Type} (m : List (String × α)) (k : String) (v : α)
    (h : mget m k = some v) : (k, v) ∈ m := by
  induction m with
  | nil => cases h
  | cons e t ih =>
    obtain ⟨k0, v0⟩ := e
    simp only [mget] at h
    by_cases h0 : k0 = k
    · rw [if_pos h0] at h
      cases h
      rw [h0]
      exact List.mem_cons_self _ _
    · rw [if_neg h0] at h
      exact List.mem_cons_of_mem _ (ih h)

theorem mset_keys_nodup {α : Type} (m : List (String × α)) (k : String) (v : α)
    (h : (m.map Prod.fst).Nodup) : ((mset m k v).map Prod.fst).Nodup := by
  rw [mset_keys]
  by_cases hs : (mget m k).isSome = true
  · simp [hs, h]
  · rw [if_neg hs]
    have hk : k ∉ m.map Prod.fst := fun hc => hs ((mget_isSome_iff_mem_keys m k).mpr hc)
    exact List.Nodup.append h (List.nodup_singleton k)
      (List.disjoint_singleton.mpr hk)

/-- Every row of the matrix has pairwise-distinct category-id keys. -/
def RowsNodup (m : Matrix) : Prop :=
  ∀ e ∈ m, (e.2.map Prod.fst).Nodup

theorem rowsNodup_matrixSet (m : Matrix) (t c : String) (cell : DividedParts)
    (hm : RowsNodup m) : RowsNodup (matrixSet m t c cell) := by
  intro e he
  simp only [matrixSet] at he
  cases hrow : mget m t with
  | none =>
    rw [hrow] at he
    rcases List.mem_append.mp he with he | he
    · exact hm e he
    · rw [List.mem_singleton] at he
      subst he
      simp
  | some row =>
    rw [hrow] at he
    rcases mem_mset _ _ _ _ he with rfl | he
    · exact mset_keys_nodup _ _ _ (hm (t, row) (mget_eq_some_mem _ _ _ hrow))
    · exact hm e he

theorem rowsNodup_buildTors (cid : String) (tors : List TOR) (acc : BuildAcc)
    (hm : RowsNodup acc.matrix) : RowsNodup (buildTors cid tors acc).matrix := by
  induction tors generalizing acc with
  | nil => exact hm
  | cons tor rest ih =>
    simp only [buildTors]
    exact ih _ (rowsNodup_matrixSet _ _ _ _ hm)

theorem rowsNodup_buildCats (cats : List SNRCategory) (acc : BuildAcc)
    (hm : RowsNodup acc.matrix) : RowsNodup (buildCats cats acc).matrix := by
  induction cats generalizing acc with
  | nil => exact hm
  | cons c rest ih =>
    simp only [buildCats]
    cases c.repairTypes with
    | none => exact ih _ hm
    | some rts => exact ih _ (rowsNodup_buildTors _ _ _ hm)

theorem mget2_isSome_buildTors (cid : String) (tors : List TOR) (acc : BuildAcc)
    (t c : String) :
    (mget2 (buildTors cid tors acc).matrix t c).isSome = true ↔
      (t, c) ∈ torWrites cid tors ∨ (mget2 acc.matrix t c).isSome = true := by
  induction tors generalizing acc with
  | nil => simp [buildTors, torWrites]
  | cons tor rest ih =>
    simp only [buildTors, torWrites, List.map_cons, List.mem_cons]
    rw [ih, mget2_matrixSet]
    by_cases h : tor.torId = t ∧ cid = c
    · have : (t, c) = (tor.torId, cid) := by rw [h.1, h.2]
      simp [h, this]
    · have hne : ¬((t, c) = (tor.torId, cid)) := by
        intro hc
        injection hc with h1 h2
        exact h ⟨h1.symm, h2.symm⟩
      rw [if_neg h]
      simp only [hne, false_or]
      constructor
      · rintro (hmem | hs)
        · exact Or.inl hmem
        · exact Or.inr hs
      · rintro (hmem | hs)
        · exact Or.inl hmem
        · exact Or.inr hs

theorem mget2_isSome_buildCats (cats : List SNRCategory) (acc : BuildAcc)
    (t c : String) :
    (mget2 (buildCats cats acc).matrix t c).isSome = true ↔
      (t, c) ∈ catWrites cats ∨ (mget2 acc.matrix t c).isSome = true := by
  induction cats generalizing acc with
  | nil => simp [buildCats, catWrites]
  | cons c0 rest ih =>
    simp only [buildCats]
    cases hrts : c0.repairTypes with
    | none =>
      simp only [catWrites, hrts]
      exact ih acc
    | some rts =>
      simp only [catWrites, hrts, List.mem_append]
      rw [ih, mget2_isSome_buildTors]
      tauto

theorem mem_catWrites_iff (cats : List SNRCategory) (t c : String) :
    (t, c) ∈ catWrites cats ↔
      ∃ cat ∈ cats, cat.categoryId = c ∧ ∃ rts, cat.repairTypes = some rts ∧
        ∃ tor ∈ rts, tor.torId = t := by
  induction cats with
  | nil => simp [catWrites]
  | cons c0 rest ih =>
    cases hrts : c0.repairTypes with
    | none =>
      simp only [catWrites, hrts, ih, List.mem_cons]
      constructor
      · rintro ⟨cat, hcat, h⟩
        exact ⟨cat, Or.inr hcat, h⟩
      · rintro ⟨cat, (rfl | hcat), h⟩
        · obtain ⟨-, rts, hrts', -⟩ := h
          rw [hrts] at hrts'
          cases hrts'
        · exact ⟨cat, hcat, h⟩
    | some rts =>
      simp only [catWrites, hrts, List.mem_append, ih, List.mem_cons, torWrites,
        List.mem_map]
      constructor
      · rintro (⟨tor, htor, heq⟩ | ⟨cat, hcat, h⟩)
        · injection heq with h1 h2
          exact ⟨c0, Or.inl rfl, h2, rts, hrts, tor, htor, h1⟩
        · exact ⟨cat, Or.inr hcat, h⟩
      · rintro ⟨cat, (rfl | hcat), hcid, rts', hrts', tor, htor, htid⟩
        · rw [hrts] at hrts'
          cases hrts'
          exact Or.inl ⟨tor, htor, by rw [htid, hcid]⟩
        · exact Or.inr ⟨cat, hcat, hcid, rts', hrts', tor, htor, htid⟩

/-- C7 — the column order is the matrix's `(torId, category count)` pairs,
stably sorted by strictly descending count: the sorted list is a permutation of
the encounter-ordered pairs, counts never increase along it, ties keep
encounter order (equal-count slices are unchanged), row order is first-encounter
order of the repair types, and each row's length counts the distinct categories
containing that repair type. -/
theorem build_column_order (cats : List SNRCategory) (s : State) :
    (createPartsMatrix (some cats) s).torColumns =
      (sortByCountDesc (torCountPairs
        (buildCats cats ⟨[], s.categoriesById, s.torsById⟩).matrix)).map Prod.fst ∧
    List.Perm
      (sortByCountDesc (torCountPairs
        (buildCats cats ⟨[], s.categoriesById, s.torsById⟩).matrix))
      (torCountPairs (buildCats cats ⟨[], s.categoriesById, s.torsById⟩).matrix) ∧
    (sortByCountDesc (torCountPairs
        (buildCats cats ⟨[], s.categoriesById, s.torsById⟩).matrix)).Pairwise
      (fun a b => b.2 ≤ a.2) ∧
    (∀ n, (sortByCountDesc (torCountPairs
        (buildCats cats ⟨[], s.categoriesById, s.torsById⟩).matrix)).filter
          (fun y => y.2 == n) =
      (torCountPairs (buildCats cats ⟨[], s.categoriesById, s.torsById⟩).matrix).filter
        (fun y => y.2 == n)) ∧
    (buildCats cats ⟨[], s.categoriesById, s.torsById⟩).matrix.map Prod.fst =
      firstDedupAux [] ((catWrites cats).map Prod.fst) ∧
    (∀ e ∈ (buildCats cats ⟨[], s.categoriesById, s.torsById⟩).matrix,
      (e.2.map Prod.fst).Nodup) ∧
    (∀ t row, mget (buildCats cats ⟨[], s.categoriesById, s.torsById⟩).matrix t =
        some row →
      ∀ c, (c ∈ row.map Prod.fst ↔ (t, c) ∈ catWrites cats)) ∧
    (∀ t c, (t, c) ∈ catWrites cats ↔
      ∃ cat ∈ cats, cat.categoryId = c ∧ ∃ rts, cat.repairTypes = some rts ∧
        ∃ tor ∈ rts, tor.torId = t) := by
  refine ⟨rfl, sortByCountDesc_perm _, sortByCountDesc_pairwise _,
    fun n => sortByCountDesc_filter _ n, ?_, ?_, ?_, fun t c => mem_catWrites_iff cats t c⟩
  · simpa using buildCats_keys cats ⟨[], s.categoriesById, s.torsById⟩
  · exact rowsNodup_buildCats cats _ fun e he => absurd he (List.not_mem_nil e)
  · intro t row h c
    have h2 := mget2_isSome_buildCats cats ⟨[], s.categoriesById, s.torsById⟩ t c
    simp only [mget2, h] at h2
    rw [← mget_isSome_iff_mem_keys]
    simpa [mget] using h2

end PartsTable
